import Mathlib

/-!
# Object pool (`golang/creational/object_pool/pool.go`)

A shallow embedding of the pool of reusable objects: the two slices `idle` and
`active`, the fixed `capacity`, and the operations `initPool`, `loan`,
`receive` and `remove`.

Modelling conventions.

* A Go slice is a `List`.  The pool's `active` slice owns its backing array
  (`make` in `initPool`), and every write to the backing array of `idle`
  happens at or beyond the end of the caller's slice, so no write is visible
  through an alias: value semantics lose nothing.
* A run-time panic (index or slice bound out of range) is the outcome `none`.
* A returned `error` is `Except.error` carrying the message of the source.
* Calls are taken one at a time; the mutex is not part of the state.
* Text written to standard output is not part of the state.
-/

namespace ObjectPool

/-! ## Data model -/

/-- Modelled from the spec: the interface `iPoolObject` is declared in a file
that is not at hand; the pool uses one capability of it, `getID()`, which the
spec calls `identify() -> ResourceID`.  An object is its identifier together
with a reference `ref` telling apart two objects that answer the same
identifier.  A nil interface value is not an object of this type; the functions
over values that may be nil are in `ObjectPool.WithNil`. -/
structure iPoolObject where
  id : String
  ref : Nat
deriving DecidableEq, Repr

/-- The method `getID()` of the interface. -/
def iPoolObject.getID (o : iPoolObject) : String := o.id

/-- The struct `pool` without its mutex. -/
structure pool where
  idle : List iPoolObject
  active : List iPoolObject
  capacity : Int
deriving DecidableEq, Repr

/-! ## Slice primitives of Go, with their bound checks -/

/-- Reading `s[k]`: panics unless `0 ≤ k < len(s)`. -/
def index {α : Type} (s : List α) (k : Int) : Option α :=
  if 0 ≤ k ∧ k < s.length then s[k.toNat]? else none

/-- Writing `s[k] = v`: panics unless `0 ≤ k < len(s)`. -/
def assign {α : Type} (s : List α) (k : Int) (v : α) : Option (List α) :=
  if 0 ≤ k ∧ k < s.length then some (s.set k.toNat v) else none

/-- The slice expression `s[lo:]`: panics unless `0 ≤ lo ≤ len(s)`. -/
def sliceFrom {α : Type} (s : List α) (lo : Int) : Option (List α) :=
  if 0 ≤ lo ∧ lo ≤ s.length then some (s.drop lo.toNat) else none

/-- The slice expression `s[:hi]`, checked against `len(s)` (Go checks against
the capacity, which is at least the length, so this check is the stricter). -/
def sliceTo {α : Type} (s : List α) (hi : Int) : Option (List α) :=
  if 0 ≤ hi ∧ hi ≤ s.length then some (s.take hi.toNat) else none

/-! ## Operations -/

/-- The function `initPool`: refuses an empty slice, otherwise every object is
idle, nothing is active and the capacity is the number of objects. -/
def initPool (poolObjects : List iPoolObject) : Except String pool :=
  if poolObjects.length = 0 then
    .error "Cannot create a pool of 0 length"
  else
    .ok { idle := poolObjects, active := [], capacity := poolObjects.length }

/-- The method `loan`: the outcome is the returned pair (object or error) and
the pool after the call. -/
def loan (p : pool) : Option (Except String iPoolObject × pool) :=
  if p.idle.length = 0 then
    some (.error "No pool object free. Please request after sometime", p)
  else do
    let obj ← index p.idle 0
    let idle ← sliceFrom p.idle 1
    let p1 : pool := { p with idle := idle }
    let p2 : pool := { p1 with active := p1.active ++ [obj] }
    some (.ok obj, p2)

/-- The loop of `remove`: `rest` is the part of `p.active` still to visit and
`i` the index of its head; `n` is `len(p.active)` taken before the loop. -/
def removeLoop (p : pool) (target : iPoolObject) (n : Int) :
    Nat → List iPoolObject → Option (Except String Unit × pool)
  | _, [] => some (.error "Targe pool object doesn't belong to the pool", p)
  | i, obj :: rest =>
    if obj.getID = target.getID then do
      let ai ← index p.active i
      let an ← index p.active (n - 1)
      let a1 ← assign p.active (n - 1) ai
      let a2 ← assign a1 i an
      let a3 ← sliceTo a2 (n - 1)
      some (.ok (), { p with active := a3 })
    else
      removeLoop p target n (i + 1) rest

/-- The method `remove`: swap the first object with the identifier of `target`
with the last one and cut the last slot off. -/
def remove (p : pool) (target : iPoolObject) : Option (Except String Unit × pool) :=
  removeLoop p target p.active.length 0 p.active

/-- The method `receive`. -/
def receive (p : pool) (target : iPoolObject) : Option (Except String Unit × pool) := do
  let (r, p1) ← remove p target
  match r with
  | .error e => some (.error e, p1)
  | .ok () => some (.ok (), { p1 with idle := p1.idle ++ [target] })

/-! ## Sequences of calls -/

/-- One call on a pool. -/
inductive Call where
  | loan : Call
  | receive (target : iPoolObject) : Call
deriving DecidableEq, Repr

/-- The pool after one call, whatever the call returned. -/
def step (p : pool) : Call → Option pool
  | .loan => (loan p).map Prod.snd
  | .receive target => (receive p target).map Prod.snd

/-- The pool after a sequence of calls, made one after the other. -/
def run (p : pool) : List Call → Option pool
  | [] => some p
  | c :: cs => (step p c).bind fun q => run q cs

/-- Making `n` calls of `loan` in a row: what each call returned, in order, and
the pool after the last one. -/
def loans : Nat → pool → Option (List (Except String iPoolObject) × pool)
  | 0, p => some ([], p)
  | n + 1, p => do
    let (r, q) ← loan p
    let (rest, q2) ← loans n q
    some (r :: rest, q2)

/-- The pool `p` is reached from `initPool rs` by some sequence of calls. -/
def Reachable (rs : List iPoolObject) (p : pool) : Prop :=
  ∃ p0 calls, initPool rs = .ok p0 ∧ run p0 calls = some p

/-- The identifiers of a slice, in order. -/
def ids (s : List iPoolObject) : List String := s.map iPoolObject.getID

/-- The slice `a` with slot `i` overwritten by its last element and the last
slot dropped: what swapping slots `i` and `len(a)-1` and cutting to
`a[:len(a)-1]` leaves. -/
def swapCut {α : Type} (a : List α) (i : Nat) : List α :=
  match a.getLast? with
  | none => []
  | some z => (a.set i z).dropLast

/-! ## Reference removal, for the refinement of swap-and-cut -/

/-- Plain deletion, as the spec words the reference: the slice without its
first object that has the identifier of `target`, the others in place; `none`
when no object has it. -/
def eraseFirst (target : iPoolObject) : List iPoolObject → Option (List iPoolObject)
  | [] => none
  | obj :: rest =>
    if obj.getID = target.getID then some rest
    else (eraseFirst target rest).map fun l => obj :: l

/-- The order-preserving reference `receive` of the spec: delete the first
object of `active` with the identifier of `target` in place and append `target`
to `idle`; an error and no change when there is none. -/
def receiveRef (p : pool) (target : iPoolObject) : Except String Unit × pool :=
  match eraseFirst target p.active with
  | none => (.error "Targe pool object doesn't belong to the pool", p)
  | some a => (.ok (), { idle := p.idle ++ [target], active := a, capacity := p.capacity })

/-! ## Sample objects -/

def rA : iPoolObject := { id := "A", ref := 0 }
def rB : iPoolObject := { id := "B", ref := 1 }
def rC : iPoolObject := { id := "C", ref := 2 }

/-- A second object that answers the identifier of `rA`. -/
def rA2 : iPoolObject := { id := "A", ref := 3 }

end ObjectPool

/-!
# Singleton (`golang/creational/singleton/singleton.go`)

The package state and `getInstance`.  Calls are taken one at a time.  A pointer
is `none` for nil and `some a` for the address `a` of an allocated value.
-/

namespace Singleton

/-- The package-level state: the variable `instance` (the field `instancePtr`,
as `instance` is a keyword here), the variable `once` (the
flag of `sync.Once` telling that `Do` has run its function), the lines written
to standard output, and the number of `singleton` values allocated so far,
which is also the next fresh address. -/
structure State where
  instancePtr : Option Nat
  once : Bool
  out : List String
  allocated : Nat
deriving DecidableEq, Repr

/-- The package state before any call: `instance` is nil, `once` is unused. -/
def initial : State := { instancePtr := none, once := false, out := [], allocated := 0 }

/-- The method `Do` of `sync.Once` of the standard library, by its documented
behaviour: `f` is called if and only if `Do` is called for the first time on
this `Once`. -/
def onceDo (s : State) (f : State → State) : State :=
  if s.once then s
  else
    let s1 := f s
    { s1 with once := true }

/-- The function literal handed to `once.Do`: print the line, allocate a
`singleton` and store its address in `instance`. -/
def initBody (s : State) : State :=
  let s1 : State := { s with out := s.out ++ ["Creting Single Instance Now"] }
  { s1 with instancePtr := some s1.allocated, allocated := s1.allocated + 1 }

/-- The function `getInstance`: the returned pointer and the state after. -/
def getInstance (s : State) : Option Nat × State :=
  let s1 := onceDo s initBody
  (s1.instancePtr, s1)

/-- Calling `getInstance` `n` times in a row: the returned pointers, in order,
and the state after the last call. -/
def getInstances : Nat → State → List (Option Nat) × State
  | 0, s => ([], s)
  | n + 1, s =>
    let (r, s1) := getInstance s
    let (rest, s2) := getInstances n s1
    (r :: rest, s2)

end Singleton

/-!
# Object pool with nil interface values

The same four functions of `pool.go`, now over interface values that may be
nil.  Calling `getID()` on a nil value is a run-time panic, and so is an index
or slice bound out of range; both are outcomes of a call here, kept apart.
The calls `obj.getID()` made for the two `Printf` lines are kept, since they
can panic; the text they print is not.
-/

namespace ObjectPool.WithNil

/-- The run-time panics these functions can meet. -/
inductive Panic where
  | indexOutOfRange : Panic
  | nilDereference : Panic
deriving DecidableEq, Repr

/-- A value of the interface type `iPoolObject`: `none` is nil. -/
abbrev Value := Option iPoolObject

/-- Calling `getID()` on an interface value: nil has no method to call. -/
def getID (v : Value) : Except Panic String :=
  match v with
  | none => .error .nilDereference
  | some o => .ok o.getID

/-- A bound-checked slice primitive as an outcome: `none` is the bound panic. -/
def checked {α : Type} (r : Option α) : Except Panic α :=
  match r with
  | none => .error .indexOutOfRange
  | some a => .ok a

/-- The struct `pool` without its mutex, over interface values. -/
structure pool where
  idle : List Value
  active : List Value
  capacity : Int
deriving DecidableEq, Repr

/-- The function `initPool`; it looks at the length only. -/
def initPool (poolObjects : List Value) : Except String pool :=
  if poolObjects.length = 0 then
    .error "Cannot create a pool of 0 length"
  else
    .ok { idle := poolObjects, active := [], capacity := poolObjects.length }

/-- The method `loan`.  What it returns is the pair of Go: the value (nil
beside an error) and the error (`none` for a nil error). -/
def loan (p : pool) : Except Panic ((Value × Option String) × pool) :=
  if p.idle.length = 0 then
    .ok ((none, some "No pool object free. Please request after sometime"), p)
  else do
    let obj ← checked (index p.idle 0)
    let idle ← checked (sliceFrom p.idle 1)
    let p1 : pool := { p with idle := idle }
    let p2 : pool := { p1 with active := p1.active ++ [obj] }
    let _ ← getID obj
    .ok ((obj, none), p2)

/-- The loop of `remove`; the comparison calls `obj.getID()` first and
`target.getID()` second. -/
def removeLoop (p : pool) (target : Value) (n : Int) :
    Nat → List Value → Except Panic (Option String × pool)
  | _, [] => .ok (some "Targe pool object doesn't belong to the pool", p)
  | i, obj :: rest => do
    let a ← getID obj
    let b ← getID target
    if a = b then do
      let ai ← checked (index p.active i)
      let an ← checked (index p.active (n - 1))
      let a1 ← checked (assign p.active (n - 1) ai)
      let a2 ← checked (assign a1 i an)
      let a3 ← checked (sliceTo a2 (n - 1))
      .ok (none, { p with active := a3 })
    else
      removeLoop p target n (i + 1) rest

/-- The method `remove`. -/
def remove (p : pool) (target : Value) : Except Panic (Option String × pool) :=
  removeLoop p target p.active.length 0 p.active

/-- The method `receive`. -/
def receive (p : pool) (target : Value) : Except Panic (Option String × pool) := do
  let (err, p1) ← remove p target
  match err with
  | some e => .ok (some e, p1)
  | none =>
    let p2 : pool := { p1 with idle := p1.idle ++ [target] }
    let _ ← getID target
    .ok (none, p2)

/-- A pool of objects seen as a pool of interface values, none of them nil. -/
def ofObjects (p : ObjectPool.pool) : pool :=
  { idle := p.idle.map some, active := p.active.map some, capacity := p.capacity }

end ObjectPool.WithNil

namespace ObjectPool

/-! ## The slice primitives inside their bounds -/

theorem index_eq_get {α : Type} (s : List α) (k : Nat) (hk : k < s.length) :
    index s (k : Int) = some (s.get ⟨k, hk⟩) := by
  simp [index, hk]

theorem assign_eq_set {α : Type} (s : List α) (k : Nat) (v : α) (hk : k < s.length) :
    assign s (k : Int) v = some (s.set k v) := by
  simp [assign, hk]

theorem sliceTo_eq_take {α : Type} (s : List α) (k : Nat) (hk : k ≤ s.length) :
    sliceTo s (k : Int) = some (s.take k) := by
  simp [sliceTo, hk]

theorem sliceFrom_eq_drop {α : Type} (s : List α) (k : Nat) (hk : k ≤ s.length) :
    sliceFrom s (k : Int) = some (s.drop k) := by
  simp [sliceFrom, hk]

/-! ## `loan` -/

theorem loan_nil (p : pool) (h : p.idle = []) :
    loan p = some (.error "No pool object free. Please request after sometime", p) := by
  simp [loan, h]

theorem loan_cons (p : pool) (x : iPoolObject) (xs : List iPoolObject) (h : p.idle = x :: xs) :
    loan p = some (.ok x, { idle := xs, active := p.active ++ [x], capacity := p.capacity }) := by
  have h0 : index (x :: xs) 0 = some x := by
    have := index_eq_get (x :: xs) 0 (by simp)
    simpa using this
  have h1 : sliceFrom (x :: xs) 1 = some xs := by
    have := sliceFrom_eq_drop (x :: xs) 1 (by simp)
    simpa using this
  simp [loan, h, h0, h1]

/-! ## Swap with the last slot and cut -/

theorem take_set_self {α : Type} (a : List α) (k : Nat) (v : α) :
    (a.set k v).take k = a.take k := by
  induction a generalizing k with
  | nil => simp
  | cons x xs ih =>
    cases k with
    | zero => simp
    | succ k => simp [ih]

theorem swap_cut_eq {α β : Type} (a : List α) (i : Nat) (hi : i < a.length)
    (f : List α → Option β) :
    (do
      let ai ← index a i
      let an ← index a ((a.length : Int) - 1)
      let a1 ← assign a ((a.length : Int) - 1) ai
      let a2 ← assign a1 i an
      let a3 ← sliceTo a2 ((a.length : Int) - 1)
      f a3) = f (swapCut a i) := by
  have hpos : 0 < a.length := by omega
  have hn : ((a.length : Int) - 1) = ((a.length - 1 : Nat) : Int) := by omega
  have hne : a ≠ [] := List.ne_nil_of_length_pos hpos
  have hlast : a.getLast? = some (a.getLast hne) := List.getLast?_eq_getLast a hne
  rw [hn, index_eq_get a i hi, index_eq_get a (a.length - 1) (by omega)]
  simp only [Option.bind_eq_bind, Option.some_bind]
  rw [assign_eq_set a (a.length - 1) _ (by omega)]
  simp only [Option.some_bind]
  rw [assign_eq_set _ i _ (by simpa using hi)]
  simp only [Option.some_bind]
  rw [sliceTo_eq_take _ _ (by simp)]
  simp only [swapCut, hlast, Option.some_bind]
  congr 1
  have hz : a.get ⟨a.length - 1, by omega⟩ = a.getLast hne := by
    rw [List.getLast_eq_getElem]; rfl
  rw [hz, List.dropLast_eq_take, List.length_set]
  by_cases hil : i = a.length - 1
  · subst hil
    rw [List.set_set]
  · rw [List.set_comm _ _ _ (by omega), take_set_self]

theorem swapCut_last {α : Type} (mid : List α) (obj : α) :
    swapCut (mid ++ [obj]) mid.length = mid := by
  simp [swapCut]

theorem swapCut_inner {α : Type} (mid init : List α) (obj z : α) :
    swapCut (mid ++ obj :: (init ++ [z])) mid.length = mid ++ z :: init := by
  have e : mid ++ obj :: (init ++ [z]) = (mid ++ obj :: init) ++ [z] := by simp
  have h : (mid ++ obj :: (init ++ [z])).getLast? = some z := by
    rw [e, List.getLast?_append]; simp
  simp only [swapCut, h]
  rw [List.set_append_right _ _ (le_refl _)]
  simp only [Nat.sub_self, List.set_cons_zero]
  rw [show mid ++ z :: (init ++ [z]) = (mid ++ z :: init) ++ [z] by simp]
  exact List.dropLast_concat

theorem swapCut_perm {α : Type} (mid post : List α) (obj : α) :
    (swapCut (mid ++ obj :: post) mid.length).Perm (mid ++ post) := by
  rcases List.eq_nil_or_concat post with h | ⟨init, z, h⟩
  · subst h; rw [swapCut_last]; simp
  · subst h
    rw [List.concat_eq_append, swapCut_inner]
    refine List.Perm.append_left mid ?_
    exact (List.perm_append_singleton z init).symm

theorem swapCut_length {α : Type} (a : List α) (i : Nat) :
    (swapCut a i).length = a.length - 1 := by
  unfold swapCut
  cases h : a.getLast? with
  | none => simp [List.getLast?_eq_none_iff.mp h]
  | some z => simp

/-! ## `remove` and `receive` -/

theorem removeLoop_miss (p : pool) (target : iPoolObject) (n : Int) :
    ∀ (rest : List iPoolObject) (k : Nat), (∀ o ∈ rest, o.getID ≠ target.getID) →
      removeLoop p target n k rest =
        some (.error "Targe pool object doesn't belong to the pool", p) := by
  intro rest
  induction rest with
  | nil => intro k _; rfl
  | cons x xs ih =>
    intro k h
    have hx : x.getID ≠ target.getID := h x (by simp)
    simp only [removeLoop, hx, if_false]
    exact ih (k + 1) (fun o ho => h o (by simp [ho]))

theorem removeLoop_hit (p : pool) (target obj : iPoolObject) (post : List iPoolObject)
    (hobj : obj.getID = target.getID) :
    ∀ (mid : List iPoolObject) (k : Nat), (∀ o ∈ mid, o.getID ≠ target.getID) →
      k + mid.length < p.active.length →
      removeLoop p target p.active.length k (mid ++ obj :: post) =
        some (.ok (), { p with active := swapCut p.active (k + mid.length) }) := by
  intro mid
  induction mid with
  | nil =>
    intro k _ hk
    simp only [List.nil_append, removeLoop, hobj, if_true, List.length_nil, Nat.add_zero]
    exact swap_cut_eq p.active k (by simpa using hk)
      (fun a3 => some (Except.ok (), { p with active := a3 }))
  | cons x xs ih =>
    intro k h hk
    have hx : x.getID ≠ target.getID := h x (by simp)
    have e := ih (k + 1) (fun o ho => h o (by simp [ho])) (by simp at hk; omega)
    simp only [List.cons_append, removeLoop, hx, if_false]
    rw [show k + (x :: xs).length = k + 1 + xs.length by simp; omega]
    exact e

theorem remove_miss (p : pool) (target : iPoolObject)
    (h : ∀ o ∈ p.active, o.getID ≠ target.getID) :
    remove p target = some (.error "Targe pool object doesn't belong to the pool", p) :=
  removeLoop_miss p target _ p.active 0 h

theorem remove_hit (p : pool) (target obj : iPoolObject) (mid post : List iPoolObject)
    (ha : p.active = mid ++ obj :: post) (hmid : ∀ o ∈ mid, o.getID ≠ target.getID)
    (hobj : obj.getID = target.getID) :
    remove p target = some (.ok (), { p with active := swapCut p.active mid.length }) := by
  have h := removeLoop_hit p target obj post hobj mid 0 hmid (by simp [ha])
  unfold remove
  rw [Nat.zero_add] at h
  rw [← h, ← ha]

theorem receive_miss (p : pool) (target : iPoolObject)
    (h : ∀ o ∈ p.active, o.getID ≠ target.getID) :
    receive p target = some (.error "Targe pool object doesn't belong to the pool", p) := by
  simp [receive, remove_miss p target h]

theorem receive_hit (p : pool) (target obj : iPoolObject) (mid post : List iPoolObject)
    (ha : p.active = mid ++ obj :: post) (hmid : ∀ o ∈ mid, o.getID ≠ target.getID)
    (hobj : obj.getID = target.getID) :
    receive p target = some (.ok (),
      { idle := p.idle ++ [target], active := swapCut p.active mid.length,
        capacity := p.capacity }) := by
  simp [receive, remove_hit p target obj mid post ha hmid hobj]

/-- A slice either holds no object with the identifier of `target`, or splits
at the first one that has it. -/
theorem split_first (target : iPoolObject) (l : List iPoolObject) :
    (∀ o ∈ l, o.getID ≠ target.getID) ∨
    ∃ mid obj post, l = mid ++ obj :: post ∧ (∀ o ∈ mid, o.getID ≠ target.getID) ∧
      obj.getID = target.getID := by
  induction l with
  | nil => left; simp
  | cons x xs ih =>
    by_cases hx : x.getID = target.getID
    · right; exact ⟨[], x, xs, rfl, by simp, hx⟩
    · rcases ih with h | ⟨mid, obj, post, e, hm, ho⟩
      · left
        intro o ho
        rcases List.mem_cons.mp ho with rfl | h'
        · exact hx
        · exact h o h'
      · right
        refine ⟨x :: mid, obj, post, by simp [e], ?_, ho⟩
        intro o ho'
        rcases List.mem_cons.mp ho' with rfl | h'
        · exact hx
        · exact hm o h'

/-! ## What a call preserves -/

theorem ids_append (a b : List iPoolObject) : ids (a ++ b) = ids a ++ ids b := by
  simp [ids]

theorem loan_preserves (p : pool) :
    ∃ r q, loan p = some (r, q) ∧
      (ids (q.idle ++ q.active)).Perm (ids (p.idle ++ p.active)) ∧
      q.capacity = p.capacity := by
  cases h : p.idle with
  | nil => exact ⟨_, _, loan_nil p h, by simp [h], rfl⟩
  | cons x xs =>
    refine ⟨_, _, loan_cons p x xs h, ?_, rfl⟩
    simp only [ids_append]
    have e : ids (x :: xs) = ids [x] ++ ids xs := by simp [ids]
    rw [e]
    have h1 : (ids xs ++ (ids p.active ++ ids [x])).Perm (ids xs ++ (ids [x] ++ ids p.active)) :=
      List.Perm.append_left _ List.perm_append_comm
    have h2 : ((ids xs ++ ids [x]) ++ ids p.active).Perm ((ids [x] ++ ids xs) ++ ids p.active) :=
      List.Perm.append_right _ List.perm_append_comm
    rw [List.append_assoc] at h2
    exact h1.trans h2

theorem receive_preserves (p : pool) (target : iPoolObject) :
    ∃ r q, receive p target = some (r, q) ∧
      (ids (q.idle ++ q.active)).Perm (ids (p.idle ++ p.active)) ∧
      q.capacity = p.capacity := by
  rcases split_first target p.active with h | ⟨mid, obj, post, ha, hmid, hobj⟩
  · exact ⟨_, _, receive_miss p target h, List.Perm.refl _, rfl⟩
  · refine ⟨_, _, receive_hit p target obj mid post ha hmid hobj, ?_, rfl⟩
    have hp : (swapCut p.active mid.length).Perm (mid ++ post) := by
      rw [ha]; exact swapCut_perm mid post obj
    have hp2 : (ids (swapCut p.active mid.length)).Perm (ids (mid ++ post)) := hp.map _
    simp only [ids_append, List.append_assoc]
    refine List.Perm.append_left _ ?_
    have e : ids p.active = ids mid ++ target.getID :: ids post := by
      rw [ha]; simp [ids, hobj]
    rw [e]
    have h1 : (ids [target] ++ ids (swapCut p.active mid.length)).Perm
        (ids [target] ++ ids (mid ++ post)) := List.Perm.append_left _ hp2
    have h2 : (target.getID :: (ids mid ++ ids post)).Perm
        (ids mid ++ target.getID :: ids post) := List.perm_middle.symm
    have e2 : ids [target] ++ ids (mid ++ post) = target.getID :: (ids mid ++ ids post) := by
      simp [ids]
    rw [e2] at h1
    exact h1.trans h2

theorem step_preserves (p : pool) (c : Call) :
    ∃ q, step p c = some q ∧
      (ids (q.idle ++ q.active)).Perm (ids (p.idle ++ p.active)) ∧
      q.capacity = p.capacity := by
  cases c with
  | loan =>
    obtain ⟨r, q, h, hp, hc⟩ := loan_preserves p
    exact ⟨q, by simp [step, h], hp, hc⟩
  | receive target =>
    obtain ⟨r, q, h, hp, hc⟩ := receive_preserves p target
    exact ⟨q, by simp [step, h], hp, hc⟩

theorem run_preserves (calls : List Call) :
    ∀ p : pool, ∃ q, run p calls = some q ∧
      (ids (q.idle ++ q.active)).Perm (ids (p.idle ++ p.active)) ∧
      q.capacity = p.capacity := by
  induction calls with
  | nil => intro p; exact ⟨p, rfl, List.Perm.refl _, rfl⟩
  | cons c cs ih =>
    intro p
    obtain ⟨q, hq, hp, hc⟩ := step_preserves p c
    obtain ⟨q2, hq2, hp2, hc2⟩ := ih q
    exact ⟨q2, by simp [run, hq, hq2], hp2.trans hp, hc2.trans hc⟩

theorem initPool_ok (rs : List iPoolObject) (h : rs ≠ []) :
    initPool rs = .ok { idle := rs, active := [], capacity := rs.length } := by
  have : rs.length ≠ 0 := by simpa using h
  simp [initPool, this]

theorem initPool_inv (rs : List iPoolObject) (p0 : pool) (h : initPool rs = .ok p0) :
    rs ≠ [] ∧ p0 = { idle := rs, active := [], capacity := rs.length } := by
  unfold initPool at h
  split at h
  · cases h
  · rename_i hne
    refine ⟨by intro e; simp [e] at hne, ?_⟩
    cases h; rfl

/-- Every pool reached from `initPool rs` holds the identifiers of `rs`, each
as often as `rs` does, and has the capacity `len(rs)`. -/
theorem reachable_inv (rs : List iPoolObject) (p : pool) (h : Reachable rs p) :
    (ids (p.idle ++ p.active)).Perm (ids rs) ∧ p.capacity = rs.length := by
  obtain ⟨p0, calls, h0, hr⟩ := h
  obtain ⟨_, e⟩ := initPool_inv rs p0 h0
  obtain ⟨q, hq, hp, hc⟩ := run_preserves calls p0
  rw [hr] at hq
  cases hq
  subst e
  exact ⟨by simpa using hp, by simpa using hc⟩

/-! ## Distinct identifiers -/

/-- In a pool reached from objects with pairwise distinct identifiers, the
identifiers of `idle` followed by those of `active` have no repetition. -/
theorem reachable_nodup (rs : List iPoolObject) (p : pool) (h : Reachable rs p)
    (hdistinct : (ids rs).Nodup) : (ids p.idle ++ ids p.active).Nodup := by
  rw [← ids_append]
  exact (reachable_inv rs p h).1.nodup_iff.mpr hdistinct

theorem mem_ids (o : iPoolObject) (l : List iPoolObject) (h : o ∈ l) : o.getID ∈ ids l :=
  List.mem_map_of_mem _ h

/-! ## Calls of `loan` in a row -/

/-- Running `loan` as often as there are idle objects hands them out in order. -/
theorem loans_all (xs : List iPoolObject) :
    ∀ p : pool, p.idle = xs →
      loans xs.length p = some (xs.map Except.ok,
        { idle := [], active := p.active ++ xs, capacity := p.capacity }) := by
  induction xs with
  | nil =>
    intro p h
    cases p
    simp_all [loans]
  | cons x xs ih =>
    intro p h
    have h2 := ih { idle := xs, active := p.active ++ [x], capacity := p.capacity } rfl
    simp only [List.length_cons, loans, loan_cons p x xs h, Option.bind_eq_bind,
      Option.some_bind, h2]
    simp

/-- One call of `loan` more than there are idle objects: the last one fails. -/
theorem loans_all_then_fail (xs : List iPoolObject) :
    ∀ p : pool, p.idle = xs →
      loans (xs.length + 1) p = some
        (xs.map Except.ok ++ [.error "No pool object free. Please request after sometime"],
        { idle := [], active := p.active ++ xs, capacity := p.capacity }) := by
  induction xs with
  | nil =>
    intro p h
    cases p
    simp_all [loans, loan_nil]
  | cons x xs ih =>
    intro p h
    have h2 := ih { idle := xs, active := p.active ++ [x], capacity := p.capacity } rfl
    rw [show (x :: xs).length + 1 = (xs.length + 1) + 1 by simp]
    rw [loans, loan_cons p x xs h]
    simp only [Option.bind_eq_bind, Option.some_bind, h2]
    simp

/-! ## The claims -/

/-- C1: for every non-empty `rs` and every finite sequence of `loan` and
`receive` calls (any targets, whether the calls succeed or fail) made on the
pool returned by `initPool rs`, the calls all return and the resulting pool has
`len(idle) + len(active) = capacity = len(rs)`. -/
theorem C1_sizes_add_up_to_capacity (rs : List iPoolObject) (hrs : rs ≠ [])
    (calls : List Call) :
    ∃ p0 p, initPool rs = .ok p0 ∧ run p0 calls = some p ∧
      ((p.idle.length + p.active.length : Nat) : Int) = p.capacity ∧
      p.capacity = (rs.length : Int) := by
  obtain ⟨p, hp, _, _⟩ := run_preserves calls { idle := rs, active := [], capacity := rs.length }
  have hreach : Reachable rs p := ⟨_, calls, initPool_ok rs hrs, hp⟩
  obtain ⟨hperm, hcap⟩ := reachable_inv rs p hreach
  refine ⟨_, p, initPool_ok rs hrs, hp, ?_, hcap⟩
  have hl := hperm.length_eq
  simp only [ids, List.length_map, List.length_append] at hl
  rw [hcap, hl]

theorem C1_sizes_add_up_to_capacity_witness :
    [rA, rB] ≠ [] ∧
    ∃ p0 p, initPool [rA, rB] = .ok p0 ∧
      run p0 [.loan, .receive rC, .loan, .loan, .receive rA] = some p ∧
      ((p.idle.length + p.active.length : Nat) : Int) = p.capacity ∧
      p.capacity = (([rA, rB] : List iPoolObject).length : Int) :=
  ⟨by decide, C1_sizes_add_up_to_capacity [rA, rB] (by decide)
    [.loan, .receive rC, .loan, .loan, .receive rA]⟩

/-- C2: for every non-empty `rs` whose identifiers are pairwise distinct and
every finite sequence of `loan` and `receive` calls made on `initPool rs`, no
identifier occurs both in `idle` and in `active` of the resulting pool. -/
theorem C2_idle_active_disjoint (rs : List iPoolObject) (hrs : rs ≠ [])
    (hdistinct : (ids rs).Nodup) (calls : List Call) :
    ∃ p0 p, initPool rs = .ok p0 ∧ run p0 calls = some p ∧
      ∀ x, x ∈ ids p.idle → x ∉ ids p.active := by
  obtain ⟨p, hp, _, _⟩ := run_preserves calls { idle := rs, active := [], capacity := rs.length }
  have hreach : Reachable rs p := ⟨_, calls, initPool_ok rs hrs, hp⟩
  obtain ⟨hperm, _⟩ := reachable_inv rs p hreach
  refine ⟨_, p, initPool_ok rs hrs, hp, ?_⟩
  have hnd : (ids p.idle ++ ids p.active).Nodup := by
    rw [← ids_append]; exact hperm.nodup_iff.mpr hdistinct
  intro x hx hx2
  exact (List.nodup_append.mp hnd).2.2 hx hx2

theorem C2_idle_active_disjoint_witness :
    [rA, rB] ≠ [] ∧ (ids [rA, rB]).Nodup ∧
    ∃ p0 p, initPool [rA, rB] = .ok p0 ∧
      run p0 [.loan, .receive rC, .loan, .receive rA] = some p ∧
      ∀ x, x ∈ ids p.idle → x ∉ ids p.active :=
  ⟨by decide, by decide, C2_idle_active_disjoint [rA, rB] (by decide) (by decide)
    [.loan, .receive rC, .loan, .receive rA]⟩

/-- C3: for every pool and every target, `receive` returns an error exactly
when no object of `active` has the identifier of the target, and whenever it
returns an error the pool (`idle`, `active`, `capacity`) is what it was. -/
theorem C3_receive_error_iff_not_active (p : pool) (target : iPoolObject) :
    ((∃ e q, receive p target = some (.error e, q)) ↔
      ∀ o ∈ p.active, o.getID ≠ target.getID) ∧
    (∀ e q, receive p target = some (.error e, q) → q = p) := by
  rcases split_first target p.active with h | ⟨mid, obj, post, ha, hmid, hobj⟩
  · have hr := receive_miss p target h
    refine ⟨⟨fun _ => h, fun _ => ⟨_, _, hr⟩⟩, ?_⟩
    intro e q he
    rw [hr] at he
    cases he; rfl
  · have hr := receive_hit p target obj mid post ha hmid hobj
    refine ⟨⟨?_, ?_⟩, ?_⟩
    · rintro ⟨e, q, he⟩
      rw [hr] at he
      cases he
    · intro h
      exact absurd hobj (h obj (by simp [ha]))
    · intro e q he
      rw [hr] at he
      cases he

/-- C4: for every pool whose `idle` is not empty, `loan` succeeds, returns the
first object of `idle`, and leaves `idle` without its first object (order
kept), `active` with the returned object appended at the end, and `capacity`
unchanged. -/
theorem C4_loan_takes_front (p : pool) (h : p.idle ≠ []) :
    loan p = some (.ok (p.idle.head h),
      { idle := p.idle.tail, active := p.active ++ [p.idle.head h],
        capacity := p.capacity }) := by
  obtain ⟨x, xs, hi⟩ := List.exists_cons_of_ne_nil h
  have hh : p.idle.head h = x := by simp [hi]
  rw [loan_cons p x xs hi, hh, hi]
  rfl

theorem C4_loan_takes_front_witness :
    ({ idle := [rB, rC], active := [rA], capacity := 3 } : pool).idle ≠ [] ∧
    loan { idle := [rB, rC], active := [rA], capacity := 3 } =
      some (.ok rB, { idle := [rC], active := [rA, rB], capacity := 3 }) :=
  ⟨by decide, C4_loan_takes_front { idle := [rB, rC], active := [rA], capacity := 3 }
    (by decide)⟩

/-- C5: for every pool, `loan` returns an error exactly when `idle` is empty,
and whenever it returns an error it returns no object and the pool (`idle`,
`active`, `capacity`) is what it was. -/
theorem C5_loan_error_iff_idle_empty (p : pool) :
    ((∃ e q, loan p = some (.error e, q)) ↔ p.idle = []) ∧
    (∀ r q, loan p = some (r, q) → (∃ e, r = .error e) →
      (∀ obj, r ≠ .ok obj) ∧ q = p) := by
  cases hi : p.idle with
  | nil =>
    have hl := loan_nil p hi
    refine ⟨⟨fun _ => rfl, fun _ => ⟨_, _, hl⟩⟩, ?_⟩
    intro r q hr _
    rw [hl] at hr
    cases hr
    exact ⟨fun obj h => (by cases h), rfl⟩
  | cons x xs =>
    have hl := loan_cons p x xs hi
    refine ⟨⟨?_, fun h => by cases h⟩, ?_⟩
    · rintro ⟨e, q, he⟩
      rw [hl] at he
      cases he
    · intro r q hr ⟨e, he⟩
      rw [hl] at hr
      cases hr
      cases he

/-- C6: for every pool with `active` of length `n` and every target such that
`i` is the first index of `active` whose object has the identifier of the
target, `receive` succeeds and leaves `active` of length `n - 1`, equal to the
old `active` with slot `i` overwritten by the old last object and the last slot
dropped, `idle` equal to the old `idle` with the target appended, and
`capacity` unchanged. -/
theorem C6_receive_swaps_with_last (p : pool) (target : iPoolObject) (i : Nat)
    (hi : i < p.active.length)
    (hmatch : (p.active.get ⟨i, hi⟩).getID = target.getID)
    (hfirst : ∀ j (hj : j < i), (p.active.get ⟨j, Nat.lt_trans hj hi⟩).getID ≠ target.getID) :
    receive p target = some (.ok (),
      { idle := p.idle ++ [target],
        active := (p.active.set i
          (p.active.getLast (List.ne_nil_of_length_pos (Nat.zero_lt_of_lt hi)))).dropLast,
        capacity := p.capacity }) ∧
    ((p.active.set i
      (p.active.getLast (List.ne_nil_of_length_pos (Nat.zero_lt_of_lt hi)))).dropLast).length
        = p.active.length - 1 := by
  have hne : p.active ≠ [] := List.ne_nil_of_length_pos (Nat.zero_lt_of_lt hi)
  have ha : p.active = p.active.take i ++ p.active.get ⟨i, hi⟩ :: p.active.drop (i + 1) := by
    have := List.take_append_drop i p.active
    rw [List.drop_eq_getElem_cons hi] at this
    exact this.symm
  have hmid : ∀ o ∈ p.active.take i, o.getID ≠ target.getID := by
    intro o ho
    obtain ⟨j, hj, rfl⟩ := List.getElem_of_mem ho
    have hj2 : j < i := by
      have := List.length_take_le i p.active
      simp only [List.length_take] at hj
      omega
    have := hfirst j hj2
    simpa [List.getElem_take] using this
  have hr := receive_hit p target _ _ _ ha hmid hmatch
  have hlen : (p.active.take i).length = i := by
    simp only [List.length_take]; omega
  rw [hlen] at hr
  have hs : swapCut p.active i = (p.active.set i (p.active.getLast hne)).dropLast := by
    simp [swapCut, List.getLast?_eq_getLast p.active hne]
  rw [hs] at hr
  exact ⟨hr, by simp⟩

theorem C6_receive_swaps_with_last_witness :
    receive { idle := [rA], active := [rB, rC, rA], capacity := 4 } rB =
      some (.ok (), { idle := [rA, rB], active := [rA, rC], capacity := 4 }) ∧
    ([rA, rC] : List iPoolObject).length = 3 - 1 :=
  C6_receive_swaps_with_last { idle := [rA], active := [rB, rC, rA], capacity := 4 } rB 0
    (by decide) (by decide) (by intro j hj; omega)

/-- C7: `initPool rs` returns an error (and no pool) exactly when `rs` is
empty; when `rs` is not empty it returns a pool whose `idle` is `rs` in the
given order, whose `active` is empty and whose `capacity` is `len(rs)`. -/
theorem C7_initPool_guard (rs : List iPoolObject) :
    ((∃ e, initPool rs = .error e) ↔ rs = []) ∧
    (rs ≠ [] →
      initPool rs = .ok { idle := rs, active := [], capacity := (rs.length : Int) }) := by
  refine ⟨⟨?_, ?_⟩, initPool_ok rs⟩
  · rintro ⟨e, he⟩
    by_contra hne
    rw [initPool_ok rs hne] at he
    cases he
  · intro h
    subst h
    exact ⟨_, rfl⟩

/-- C8: in every pool reached from `initPool` on objects with pairwise
distinct identifiers and with `idle` not empty, `loan` followed by `receive` of
the object that `loan` returned both succeed, and afterwards `idle` and
`active` each hold exactly the objects they held before the loan (as
multisets; the order of `idle` may differ). -/
theorem C8_loan_then_receive_restores (rs : List iPoolObject) (p : pool)
    (hreach : Reachable rs p) (hdistinct : (ids rs).Nodup) (hidle : p.idle ≠ []) :
    ∃ obj p1 p2, loan p = some (.ok obj, p1) ∧ receive p1 obj = some (.ok (), p2) ∧
      p2.idle.Perm p.idle ∧ p2.active.Perm p.active := by
  obtain ⟨x, xs, hi⟩ := List.exists_cons_of_ne_nil hidle
  have hnd := reachable_nodup rs p hreach hdistinct
  have hmid : ∀ o ∈ p.active, o.getID ≠ x.getID := by
    intro o ho heq
    have hx : x.getID ∈ ids p.idle := mem_ids x p.idle (by simp [hi])
    have ho2 : o.getID ∈ ids p.active := mem_ids o p.active ho
    rw [heq] at ho2
    exact (List.nodup_append.mp hnd).2.2 hx ho2
  have hr := receive_hit { idle := xs, active := p.active ++ [x], capacity := p.capacity }
    x x p.active [] rfl hmid rfl
  refine ⟨x, _, _, loan_cons p x xs hi, hr, ?_, ?_⟩
  · simp only [hi]
    exact List.perm_append_singleton x xs
  · simp only [swapCut_last]
    exact List.Perm.refl _

theorem C8_loan_then_receive_restores_witness :
    Reachable [rA, rB, rC] { idle := [rC, rA], active := [rB], capacity := 3 } ∧
    (ids [rA, rB, rC]).Nodup ∧
    ∃ obj p1 p2,
      loan { idle := [rC, rA], active := [rB], capacity := 3 } = some (.ok obj, p1) ∧
      receive p1 obj = some (.ok (), p2) ∧
      p2.idle.Perm [rC, rA] ∧ p2.active.Perm [rB] :=
  have hreach : Reachable [rA, rB, rC] { idle := [rC, rA], active := [rB], capacity := 3 } :=
    ⟨{ idle := [rA, rB, rC], active := [], capacity := 3 }, [.loan, .loan, .receive rA],
      rfl, by decide⟩
  ⟨hreach, by decide,
    C8_loan_then_receive_restores [rA, rB, rC]
      { idle := [rC, rA], active := [rB], capacity := 3 } hreach (by decide) (by decide)⟩

/-- C9: for every `N ≥ 1` and every `rs` of length `N`, starting from
`initPool rs` the first `N` calls of `loan` in a row all succeed and return
`rs[0], ..., rs[N-1]` in this order, each once, leaving `idle` empty and
`active` equal to `rs`; the call after them fails and leaves the pool so. -/
theorem C9_loans_exhaust_in_order (N : Nat) (hN : 1 ≤ N) (rs : List iPoolObject)
    (hlen : rs.length = N) :
    ∃ p0, initPool rs = .ok p0 ∧
      loans N p0 = some (rs.map Except.ok,
        { idle := [], active := rs, capacity := (N : Int) }) ∧
      ∃ e, loans (N + 1) p0 = some (rs.map Except.ok ++ [.error e],
        { idle := [], active := rs, capacity := (N : Int) }) := by
  subst hlen
  have hne : rs ≠ [] := by
    intro h; subst h; simp at hN
  refine ⟨_, initPool_ok rs hne, ?_,
    "No pool object free. Please request after sometime", ?_⟩
  · have := loans_all rs { idle := rs, active := [], capacity := rs.length } rfl
    simpa using this
  · have := loans_all_then_fail rs { idle := rs, active := [], capacity := rs.length } rfl
    simpa using this

theorem C9_loans_exhaust_in_order_witness :
    1 ≤ 2 ∧ ([rA, rB] : List iPoolObject).length = 2 ∧
    ∃ p0, initPool [rA, rB] = .ok p0 ∧
      loans 2 p0 = some ([.ok rA, .ok rB],
        { idle := [], active := [rA, rB], capacity := 2 }) ∧
      ∃ e, loans (2 + 1) p0 = some ([.ok rA, .ok rB] ++ [.error e],
        { idle := [], active := [rA, rB], capacity := 2 }) :=
  ⟨by decide, rfl, C9_loans_exhaust_in_order 2 (by decide) [rA, rB] rfl⟩

/-- C10: in every pool reached from `initPool` on objects with pairwise
distinct identifiers, for every object currently in `active`, calling `receive`
twice in a row with it succeeds the first time and fails the second time, and
the second call leaves `idle` and `active` as the first call left them. -/
theorem C10_second_receive_fails (rs : List iPoolObject) (p : pool) (r : iPoolObject)
    (hreach : Reachable rs p) (hdistinct : (ids rs).Nodup) (hr : r ∈ p.active) :
    ∃ p1 e, receive p r = some (.ok (), p1) ∧ receive p1 r = some (.error e, p1) := by
  rcases split_first r p.active with h | ⟨mid, obj, post, ha, hmid, hobj⟩
  · exact absurd rfl (h r hr)
  · have h1 := receive_hit p r obj mid post ha hmid hobj
    have hnd := reachable_nodup rs p hreach hdistinct
    have hnda : (ids p.active).Nodup := (List.nodup_append.mp hnd).2.1
    have hsplit : ids p.active = ids mid ++ obj.getID :: ids post := by
      rw [ha]; simp [ids]
    rw [hsplit] at hnda
    have hpost : obj.getID ∉ ids post :=
      (List.nodup_cons.mp (List.nodup_append.mp hnda).2.1).1
    have hmiss : ∀ o ∈ swapCut p.active mid.length, o.getID ≠ r.getID := by
      intro o ho
      have hp : (swapCut p.active mid.length).Perm (mid ++ post) := by
        rw [ha]; exact swapCut_perm mid post obj
      rcases List.mem_append.mp (hp.mem_iff.mp ho) with hm | hq
      · exact hmid o hm
      · intro heq
        apply hpost
        rw [hobj, ← heq]
        exact mem_ids o post hq
    have h2 := receive_miss
      { idle := p.idle ++ [r], active := swapCut p.active mid.length, capacity := p.capacity }
      r hmiss
    exact ⟨_, _, h1, h2⟩

theorem C10_second_receive_fails_witness :
    Reachable [rA, rB, rC] { idle := [rC], active := [rA, rB], capacity := 3 } ∧
    (ids [rA, rB, rC]).Nodup ∧ rA ∈ [rA, rB] ∧
    ∃ p1 e,
      receive { idle := [rC], active := [rA, rB], capacity := 3 } rA = some (.ok (), p1) ∧
      receive p1 rA = some (.error e, p1) :=
  have hreach : Reachable [rA, rB, rC] { idle := [rC], active := [rA, rB], capacity := 3 } :=
    ⟨{ idle := [rA, rB, rC], active := [], capacity := 3 }, [.loan, .loan], rfl, by decide⟩
  ⟨hreach, by decide, by decide,
    C10_second_receive_fails [rA, rB, rC]
      { idle := [rC], active := [rA, rB], capacity := 3 } rA hreach (by decide) (by decide)⟩

/-! ## More about `receive` -/

/-- What a successful `receive` did. -/
theorem receive_ok_inv (p q : pool) (target : iPoolObject)
    (h : receive p target = some (.ok (), q)) :
    ∃ mid obj post, p.active = mid ++ obj :: post ∧
      (∀ o ∈ mid, o.getID ≠ target.getID) ∧ obj.getID = target.getID ∧
      q = { idle := p.idle ++ [target], active := swapCut p.active mid.length,
            capacity := p.capacity } := by
  rcases split_first target p.active with hm | ⟨mid, obj, post, ha, hmid, hobj⟩
  · rw [receive_miss p target hm] at h
    cases h
  · rw [receive_hit p target obj mid post ha hmid hobj] at h
    cases h
    exact ⟨mid, obj, post, ha, hmid, hobj, rfl⟩

theorem eraseFirst_hit (target obj : iPoolObject) (post : List iPoolObject)
    (hobj : obj.getID = target.getID) :
    ∀ mid : List iPoolObject, (∀ o ∈ mid, o.getID ≠ target.getID) →
      eraseFirst target (mid ++ obj :: post) = some (mid ++ post) := by
  intro mid
  induction mid with
  | nil => intro _; simp [eraseFirst, hobj]
  | cons x xs ih =>
    intro h
    have hx : x.getID ≠ target.getID := h x (by simp)
    have := ih (fun o ho => h o (by simp [ho]))
    simp [eraseFirst, hx, this]

/-- In a reached pool no object has an identifier that `rs` does not have. -/
theorem reachable_ids_subset (rs : List iPoolObject) (p : pool) (h : Reachable rs p)
    (o : iPoolObject) (ho : o ∈ p.active) : o.getID ∈ ids rs := by
  have hperm := (reachable_inv rs p h).1
  apply hperm.mem_iff.mp
  rw [ids_append]
  exact List.mem_append_right _ (mem_ids o p.active ho)

/-! ## The claims, continued -/

/-- C11, as stated, fails: after `initPool [rA]` and one `loan`, the object
`rA2` is not one of the objects handed to `initPool` and no `loan` returned it,
yet `receive rA2` succeeds and moves it into `idle`, because it answers the
identifier of the active `rA`. -/
theorem C11_counterexample :
    Reachable [rA] { idle := [], active := [rA], capacity := 1 } ∧
    rA2 ∉ [rA] ∧
    loan { idle := [rA], active := [], capacity := 1 } =
      some (.ok rA, { idle := [], active := [rA], capacity := 1 }) ∧
    receive { idle := [], active := [rA], capacity := 1 } rA2 =
      some (.ok (), { idle := [rA2], active := [], capacity := 1 }) :=
  ⟨⟨{ idle := [rA], active := [], capacity := 1 }, [.loan], rfl, by decide⟩,
    by decide, rfl, rfl⟩

/-- C11, amended: in every pool reached from `initPool rs`, for every object
whose identifier is the identifier of no object of `rs`, `receive` returns an
error and leaves the pool (`idle`, `active`, `capacity`) unchanged. -/
theorem C11_foreign_identifier_rejected (rs : List iPoolObject) (p : pool)
    (target : iPoolObject) (hreach : Reachable rs p) (hforeign : target.getID ∉ ids rs) :
    ∃ e, receive p target = some (.error e, p) := by
  refine ⟨_, receive_miss p target ?_⟩
  intro o ho heq
  apply hforeign
  rw [← heq]
  exact reachable_ids_subset rs p hreach o ho

theorem C11_foreign_identifier_rejected_witness :
    Reachable [rA, rB] { idle := [rB], active := [rA], capacity := 2 } ∧
    rC.getID ∉ ids [rA, rB] ∧
    ∃ e, receive { idle := [rB], active := [rA], capacity := 2 } rC =
      some (.error e, { idle := [rB], active := [rA], capacity := 2 }) :=
  have hreach : Reachable [rA, rB] { idle := [rB], active := [rA], capacity := 2 } :=
    ⟨{ idle := [rA, rB], active := [], capacity := 2 }, [.loan], rfl, by decide⟩
  ⟨hreach, by decide,
    C11_foreign_identifier_rejected [rA, rB]
      { idle := [rB], active := [rA], capacity := 2 } rC hreach (by decide)⟩

/-- C12, as stated, fails: `initPool [rA, rA2]` succeeds although both objects
answer the identifier "A", and in the pool it returns (reached by no call at
all) that identifier occurs twice across `idle` and `active`. -/
theorem C12_counterexample :
    initPool [rA, rA2] = .ok { idle := [rA, rA2], active := [], capacity := 2 } ∧
    Reachable [rA, rA2] { idle := [rA, rA2], active := [], capacity := 2 } ∧
    ¬ (ids (({ idle := [rA, rA2], active := [], capacity := 2 } : pool).idle ++
        ({ idle := [rA, rA2], active := [], capacity := 2 } : pool).active)).Nodup :=
  ⟨rfl, ⟨{ idle := [rA, rA2], active := [], capacity := 2 }, [], rfl, rfl⟩, by decide⟩

/-- C12, amended: in every pool reached from a successful `initPool` call on
objects with pairwise distinct identifiers, by any sequence of `loan` and
`receive` calls, no identifier occurs more than once across `idle` and
`active` taken together. -/
theorem C12_identifiers_stay_unique (rs : List iPoolObject) (p : pool)
    (hreach : Reachable rs p) (hdistinct : (ids rs).Nodup) :
    (ids (p.idle ++ p.active)).Nodup := by
  rw [ids_append]
  exact reachable_nodup rs p hreach hdistinct

theorem C12_identifiers_stay_unique_witness :
    Reachable [rA, rB, rC] { idle := [rC, rA], active := [rB], capacity := 3 } ∧
    (ids [rA, rB, rC]).Nodup ∧
    (ids (({ idle := [rC, rA], active := [rB], capacity := 3 } : pool).idle ++
      ({ idle := [rC, rA], active := [rB], capacity := 3 } : pool).active)).Nodup :=
  have hreach : Reachable [rA, rB, rC] { idle := [rC, rA], active := [rB], capacity := 3 } :=
    ⟨{ idle := [rA, rB, rC], active := [], capacity := 3 }, [.loan, .loan, .receive rA],
      rfl, by decide⟩
  ⟨hreach, by decide,
    C12_identifiers_stay_unique [rA, rB, rC]
      { idle := [rC, rA], active := [rB], capacity := 3 } hreach (by decide)⟩

/-- C13: for every non-empty `rs` and every sequence of `loan` and `receive`
calls made on `initPool rs`, the identifiers held in `idle` together with
`active` are those of `rs`, each as often as in `rs`: the identifiers of
`idle ++ active` are a permutation of the identifiers of `rs`. -/
theorem C13_identifiers_only_relocated (rs : List iPoolObject) (hrs : rs ≠ [])
    (calls : List Call) :
    ∃ p0 p, initPool rs = .ok p0 ∧ run p0 calls = some p ∧
      (ids (p.idle ++ p.active)).Perm (ids rs) := by
  obtain ⟨p, hp, hperm, _⟩ :=
    run_preserves calls { idle := rs, active := [], capacity := rs.length }
  exact ⟨_, p, initPool_ok rs hrs, hp, by simpa using hperm⟩

theorem C13_identifiers_only_relocated_witness :
    [rA, rB, rC] ≠ [] ∧
    ∃ p0 p, initPool [rA, rB, rC] = .ok p0 ∧
      run p0 [.loan, .loan, .receive rA2, .receive rC, .loan] = some p ∧
      (ids (p.idle ++ p.active)).Perm (ids [rA, rB, rC]) :=
  ⟨by decide, C13_identifiers_only_relocated [rA, rB, rC] (by decide)
    [.loan, .loan, .receive rA2, .receive rC, .loan]⟩

/-- C14: removal by swap-with-last-and-cut refines plain deletion up to order:
whenever `receive` succeeds, the reference `receiveRef` succeeds too, the
resulting `active` is a permutation of the old `active` with its first object
of the target's identifier deleted in place, and the resulting `idle` (and
`capacity`) are those of the reference. -/
theorem C14_swap_cut_refines_deletion (p q : pool) (target : iPoolObject)
    (h : receive p target = some (.ok (), q)) :
    ∃ a, eraseFirst target p.active = some a ∧
      receiveRef p target =
        (.ok (), { idle := p.idle ++ [target], active := a, capacity := p.capacity }) ∧
      q.active.Perm a ∧ q.idle = (receiveRef p target).2.idle ∧
      q.capacity = (receiveRef p target).2.capacity := by
  obtain ⟨mid, obj, post, ha, hmid, hobj, hq⟩ := receive_ok_inv p q target h
  have he : eraseFirst target p.active = some (mid ++ post) := by
    rw [ha]; exact eraseFirst_hit target obj post hobj mid hmid
  have hr : receiveRef p target =
      (.ok (), { idle := p.idle ++ [target], active := mid ++ post,
                 capacity := p.capacity }) := by
    simp [receiveRef, he]
  refine ⟨mid ++ post, he, hr, ?_, ?_, ?_⟩
  · subst hq
    show (swapCut p.active mid.length).Perm (mid ++ post)
    rw [ha]; exact swapCut_perm mid post obj
  · rw [hr, hq]
  · rw [hr, hq]

theorem C14_swap_cut_refines_deletion_witness :
    receive { idle := [rC], active := [rA, rB, rC, rA2], capacity := 5 } rA =
      some (.ok (), { idle := [rC, rA], active := [rA2, rB, rC], capacity := 5 }) ∧
    ∃ a, eraseFirst rA [rA, rB, rC, rA2] = some a ∧
      receiveRef { idle := [rC], active := [rA, rB, rC, rA2], capacity := 5 } rA =
        (.ok (), { idle := [rC, rA], active := a, capacity := 5 }) ∧
      ([rA2, rB, rC] : List iPoolObject).Perm a ∧
      [rC, rA] =
        (receiveRef { idle := [rC], active := [rA, rB, rC, rA2], capacity := 5 } rA).2.idle ∧
      (5 : Int) =
        (receiveRef { idle := [rC], active := [rA, rB, rC, rA2], capacity := 5 } rA).2.capacity :=
  ⟨rfl,
    C14_swap_cut_refines_deletion
      { idle := [rC], active := [rA, rB, rC, rA2], capacity := 5 }
      { idle := [rC, rA], active := [rA2, rB, rC], capacity := 5 } rA rfl⟩

/-- C16, as stated, fails at its fourth step: on the pool of `rA` and `rB`,
after two successful loans and a failed third one, `receive rA` succeeds and
leaves `idle = [rA]` (the returned object), not `idle = [rB]`. -/
theorem C16_counterexample :
    rA.getID ≠ rB.getID ∧
    initPool [rA, rB] = .ok { idle := [rA, rB], active := [], capacity := 2 } ∧
    loans 3 { idle := [rA, rB], active := [], capacity := 2 } =
      some ([.ok rA, .ok rB, .error "No pool object free. Please request after sometime"],
        { idle := [], active := [rA, rB], capacity := 2 }) ∧
    receive { idle := [], active := [rA, rB], capacity := 2 } rA =
      some (.ok (), { idle := [rA], active := [rB], capacity := 2 }) ∧
    ([rA] : List iPoolObject) ≠ [rB] :=
  ⟨by decide, rfl, rfl, rfl, by decide⟩

/-- C16, amended: for a pool initialised with two objects `A`, `B` of distinct
identifiers, in that order: the first `loan` returns `A` leaving `idle = [B]`,
`active = [A]`; the second returns `B` leaving `idle = []`, `active = [A, B]`;
the third fails; `receive A` then succeeds leaving `idle = [A]` and
`active = [B]`; and a second `receive A` fails. -/
theorem C16_two_object_walkthrough (A B : iPoolObject) (hAB : A.getID ≠ B.getID) :
    initPool [A, B] = .ok { idle := [A, B], active := [], capacity := 2 } ∧
    loan { idle := [A, B], active := [], capacity := 2 } =
      some (.ok A, { idle := [B], active := [A], capacity := 2 }) ∧
    loan { idle := [B], active := [A], capacity := 2 } =
      some (.ok B, { idle := [], active := [A, B], capacity := 2 }) ∧
    (∃ e, loan { idle := [], active := [A, B], capacity := 2 } =
      some (.error e, { idle := [], active := [A, B], capacity := 2 })) ∧
    receive { idle := [], active := [A, B], capacity := 2 } A =
      some (.ok (), { idle := [A], active := [B], capacity := 2 }) ∧
    (∃ e, receive { idle := [A], active := [B], capacity := 2 } A =
      some (.error e, { idle := [A], active := [B], capacity := 2 })) := by
  refine ⟨rfl, ?_, ?_, ⟨_, loan_nil _ rfl⟩, ?_, ⟨_, receive_miss _ A ?_⟩⟩
  · exact loan_cons _ A [B] rfl
  · exact loan_cons _ B [] rfl
  · have h := receive_hit { idle := [], active := [A, B], capacity := 2 } A A [] [B]
      rfl (by simp) rfl
    rw [h]
    simp [swapCut]
  · intro o ho
    have : o = B := by simpa using ho
    subst this
    exact fun h => hAB h.symm

theorem C16_two_object_walkthrough_witness :
    rA.getID ≠ rB.getID ∧
    initPool [rA, rB] = .ok { idle := [rA, rB], active := [], capacity := 2 } ∧
    loan { idle := [rA, rB], active := [], capacity := 2 } =
      some (.ok rA, { idle := [rB], active := [rA], capacity := 2 }) ∧
    loan { idle := [rB], active := [rA], capacity := 2 } =
      some (.ok rB, { idle := [], active := [rA, rB], capacity := 2 }) ∧
    (∃ e, loan { idle := [], active := [rA, rB], capacity := 2 } =
      some (.error e, { idle := [], active := [rA, rB], capacity := 2 })) ∧
    receive { idle := [], active := [rA, rB], capacity := 2 } rA =
      some (.ok (), { idle := [rA], active := [rB], capacity := 2 }) ∧
    (∃ e, receive { idle := [rA], active := [rB], capacity := 2 } rA =
      some (.error e, { idle := [rA], active := [rB], capacity := 2 })) :=
  ⟨by decide, C16_two_object_walkthrough rA rB (by decide)⟩

/-- C17: in every pool reached from `initPool` on objects with pairwise
distinct identifiers and with `idle` not empty, `loan` followed by `receive` of
the returned object leaves `active` the very sequence it was before the loan
and leaves `idle` rotated left by one: the old tail followed by the old head. -/
theorem C17_loan_then_receive_rotates_idle (rs : List iPoolObject) (p : pool)
    (hreach : Reachable rs p) (hdistinct : (ids rs).Nodup) (hidle : p.idle ≠ []) :
    ∃ obj p1 p2, loan p = some (.ok obj, p1) ∧ receive p1 obj = some (.ok (), p2) ∧
      p2.active = p.active ∧ p2.idle = p.idle.tail ++ [p.idle.head hidle] ∧
      p2.idle = p.idle.rotate 1 := by
  obtain ⟨x, xs, hi⟩ := List.exists_cons_of_ne_nil hidle
  have hnd := reachable_nodup rs p hreach hdistinct
  have hmid : ∀ o ∈ p.active, o.getID ≠ x.getID := by
    intro o ho heq
    have hx : x.getID ∈ ids p.idle := mem_ids x p.idle (by simp [hi])
    have ho2 : o.getID ∈ ids p.active := mem_ids o p.active ho
    rw [heq] at ho2
    exact (List.nodup_append.mp hnd).2.2 hx ho2
  have hr := receive_hit { idle := xs, active := p.active ++ [x], capacity := p.capacity }
    x x p.active [] rfl hmid rfl
  refine ⟨x, _, _, loan_cons p x xs hi, hr, ?_, ?_, ?_⟩
  · exact swapCut_last p.active x
  · simp [hi]
  · simp [hi, List.rotate_cons_succ]

theorem C17_loan_then_receive_rotates_idle_witness :
    Reachable [rA, rB, rC] { idle := [rC, rA], active := [rB], capacity := 3 } ∧
    (ids [rA, rB, rC]).Nodup ∧
    ∃ obj p1 p2,
      loan { idle := [rC, rA], active := [rB], capacity := 3 } = some (.ok obj, p1) ∧
      receive p1 obj = some (.ok (), p2) ∧
      p2.active = [rB] ∧ p2.idle = [rA] ++ [rC] ∧
      p2.idle = ([rC, rA] : List iPoolObject).rotate 1 :=
  have hreach : Reachable [rA, rB, rC] { idle := [rC, rA], active := [rB], capacity := 3 } :=
    ⟨{ idle := [rA, rB, rC], active := [], capacity := 3 }, [.loan, .loan, .receive rA],
      rfl, by decide⟩
  ⟨hreach, by decide,
    C17_loan_then_receive_rotates_idle [rA, rB, rC]
      { idle := [rC, rA], active := [rB], capacity := 3 } hreach (by decide) (by decide)⟩

/-- C18: returned objects are recycled first-in-first-out: for every pool with
`idle` of length `k` and every target on which `receive` succeeds, the next `k`
calls of `loan` succeed and return the objects that were idle before the
`receive`, in their order, and the call after them succeeds and returns the
target. -/
theorem C18_returned_object_is_loaned_last (p q : pool) (target : iPoolObject)
    (h : receive p target = some (.ok (), q)) :
    (∃ q1, loans p.idle.length q = some (p.idle.map Except.ok, q1)) ∧
    (∃ q2, loans (p.idle.length + 1) q =
      some (p.idle.map Except.ok ++ [.ok target], q2)) := by
  obtain ⟨mid, obj, post, _, _, _, hq⟩ := receive_ok_inv p q target h
  have hidle : q.idle = p.idle ++ [target] := by rw [hq]
  have hall := loans_all (p.idle ++ [target]) q hidle
  rw [List.length_append, List.length_singleton, List.map_append, List.map_singleton] at hall
  refine ⟨?_, _, hall⟩
  -- the first `k` calls are the first `k` of the `k + 1`
  have hpre : ∀ (xs : List iPoolObject) (r : pool) (ys : List iPoolObject),
      r.idle = xs ++ ys → ∃ r1, loans xs.length r = some (xs.map Except.ok, r1) := by
    intro xs
    induction xs with
    | nil => intro r ys _; exact ⟨r, rfl⟩
    | cons x xs ih =>
      intro r ys hr
      obtain ⟨r1, h1⟩ :=
        ih { idle := xs ++ ys, active := r.active ++ [x], capacity := r.capacity } ys rfl
      refine ⟨r1, ?_⟩
      simp only [List.length_cons, loans, loan_cons r x (xs ++ ys) (by simpa using hr),
        Option.bind_eq_bind, Option.some_bind, h1]
      simp
  exact hpre p.idle q [target] hidle

theorem C18_returned_object_is_loaned_last_witness :
    receive { idle := [rB, rC], active := [rA], capacity := 3 } rA =
      some (.ok (), { idle := [rB, rC, rA], active := [], capacity := 3 }) ∧
    (∃ q1, loans 2 { idle := [rB, rC, rA], active := [], capacity := 3 } =
      some ([.ok rB, .ok rC], q1)) ∧
    (∃ q2, loans (2 + 1) { idle := [rB, rC, rA], active := [], capacity := 3 } =
      some ([.ok rB, .ok rC] ++ [.ok rA], q2)) :=
  ⟨rfl, C18_returned_object_is_loaned_last
    { idle := [rB, rC], active := [rA], capacity := 3 }
    { idle := [rB, rC, rA], active := [], capacity := 3 } rA rfl⟩

/-- On a pool of objects, none of them nil, `loan`, `receive` and `remove`
always return: no index or slice bound is out of range. -/
theorem calls_return_on_objects (p : pool) :
    (∃ r q, loan p = some (r, q) ∧ ((∃ obj, r = .ok obj) ∨ ∃ e, r = .error e)) ∧
    (∀ target, ∃ r q, receive p target = some (r, q) ∧ (r = .ok () ∨ ∃ e, r = .error e)) ∧
    (∀ target, ∃ r q, remove p target = some (r, q)) := by
  refine ⟨?_, ?_, ?_⟩
  · cases hi : p.idle with
    | nil => exact ⟨_, _, loan_nil p hi, Or.inr ⟨_, rfl⟩⟩
    | cons x xs => exact ⟨_, _, loan_cons p x xs hi, Or.inl ⟨_, rfl⟩⟩
  · intro target
    rcases split_first target p.active with hm | ⟨mid, obj, post, ha, hmid, hobj⟩
    · exact ⟨_, _, receive_miss p target hm, Or.inr ⟨_, rfl⟩⟩
    · exact ⟨_, _, receive_hit p target obj mid post ha hmid hobj, Or.inl rfl⟩
  · intro target
    rcases split_first target p.active with hm | ⟨mid, obj, post, ha, hmid, hobj⟩
    · exact ⟨_, _, remove_miss p target hm⟩
    · exact ⟨_, _, remove_hit p target obj mid post ha hmid hobj⟩

end ObjectPool

namespace Singleton

/-- Once `Do` has run, `getInstance` returns `instance` and changes nothing. -/
theorem getInstance_done (s : State) (h : s.once = true) :
    getInstance s = (s.instancePtr, s) := by
  simp [getInstance, onceDo, h]

theorem getInstances_done (n : Nat) (s : State) (h : s.once = true) :
    getInstances n s = (List.replicate n s.instancePtr, s) := by
  induction n with
  | zero => rfl
  | succ n ih => simp [getInstances, getInstance_done s h, ih, List.replicate_succ]

/-- C20: initialisation happens exactly once: for every non-empty sequence of
`getInstance` calls (here `n + 1` of them) starting from the uninitialised
package state, the first call runs the initialisation body (one line printed,
one value allocated) and returns a non-nil pointer; all the calls return that
same pointer; and the state after all of them is the state after the first, so
the later calls neither run the body nor change anything. -/
theorem C20_initialised_exactly_once (n : Nat) :
    ∃ a s1, getInstance initial = (some a, s1) ∧
      s1.out = ["Creting Single Instance Now"] ∧ s1.allocated = 1 ∧
      s1.instancePtr = some a ∧
      getInstances (n + 1) initial = (List.replicate (n + 1) (some a), s1) ∧
      getInstance s1 = (some a, s1) := by
  refine ⟨0, { instancePtr := some 0, once := true,
               out := ["Creting Single Instance Now"], allocated := 1 },
    rfl, rfl, rfl, rfl, ?_, rfl⟩
  have h1 : getInstance initial =
      (some 0, { instancePtr := some 0, once := true,
                 out := ["Creting Single Instance Now"], allocated := 1 }) := rfl
  simp only [getInstances, h1, List.replicate_succ]
  rw [getInstances_done n _ rfl]

end Singleton

namespace ObjectPool.WithNil

/-! ## The bound checks with nil values around -/

theorem swap_cut_checked {α β : Type} (a : List α) (i : Nat) (hi : i < a.length)
    (f : List α → Except Panic β) :
    (do
      let ai ← checked (index a i)
      let an ← checked (index a ((a.length : Int) - 1))
      let a1 ← checked (assign a ((a.length : Int) - 1) ai)
      let a2 ← checked (assign a1 i an)
      let a3 ← checked (sliceTo a2 ((a.length : Int) - 1))
      f a3) = f (swapCut a i) := by
  have h := swap_cut_eq a i hi (fun a3 => some a3)
  have hn : ((a.length : Int) - 1) = ((a.length - 1 : Nat) : Int) := by omega
  rw [hn] at h ⊢
  rw [index_eq_get a i hi, index_eq_get a (a.length - 1) (by omega)] at h
  simp only [Option.bind_eq_bind, Option.some_bind] at h
  rw [assign_eq_set a (a.length - 1) _ (by omega)] at h
  simp only [Option.some_bind] at h
  rw [assign_eq_set _ i _ (by simpa using hi)] at h
  simp only [Option.some_bind] at h
  rw [sliceTo_eq_take _ _ (by simp)] at h
  simp only [Option.some_bind, Option.some.injEq] at h
  rw [index_eq_get a i hi, index_eq_get a (a.length - 1) (by omega)]
  simp only [checked, bind, Except.bind]
  rw [assign_eq_set a (a.length - 1) _ (by omega)]
  simp only []
  rw [assign_eq_set _ i _ (by simpa using hi)]
  simp only []
  rw [sliceTo_eq_take _ _ (by simp)]
  simp only []
  rw [h]

theorem loan_idle_nil (p : pool) (h : p.idle = []) :
    loan p = .ok ((none, some "No pool object free. Please request after sometime"), p) := by
  simp [loan, h]

theorem loan_idle_cons (p : pool) (v : Value) (vs : List Value) (h : p.idle = v :: vs) :
    loan p = (getID v).bind fun _ =>
      .ok ((v, none), { idle := vs, active := p.active ++ [v], capacity := p.capacity }) := by
  have h0 : index (v :: vs) 0 = some v := by
    have := index_eq_get (v :: vs) 0 (by simp)
    simpa using this
  have h1 : sliceFrom (v :: vs) 1 = some vs := by
    have := sliceFrom_eq_drop (v :: vs) 1 (by simp)
    simpa using this
  simp only [loan, h, List.length_cons, Nat.add_one_ne_zero, if_false, h0, h1, checked, bind,
    Except.bind]

/-- The loop of `remove` either returns, or stops on a nil value: it never
leaves the bounds of `active`.  When it returns without an error, a match was
found, so the target has an identifier. -/
theorem removeLoop_outcome (p : pool) (target : Value) :
    ∀ (rest : List Value) (k : Nat), k + rest.length = p.active.length →
      (∃ r q, removeLoop p target p.active.length k rest = .ok (r, q) ∧
        (r = none → target ≠ none)) ∨
      (removeLoop p target p.active.length k rest = .error .nilDereference ∧
        (target = none ∨ none ∈ rest)) := by
  intro rest
  induction rest with
  | nil =>
    intro k _
    exact Or.inl ⟨_, _, rfl, fun h => by cases h⟩
  | cons obj rest ih =>
    intro k hk
    cases obj with
    | none => exact Or.inr ⟨rfl, Or.inr (by simp)⟩
    | some o =>
      cases target with
      | none => exact Or.inr ⟨rfl, Or.inl rfl⟩
      | some t =>
        by_cases hm : o.getID = t.getID
        · left
          have hlt : k < p.active.length := by simp at hk; omega
          have h := swap_cut_checked p.active k hlt
            (fun a3 => (.ok (none, { p with active := a3 }) :
              Except Panic (Option String × pool)))
          refine ⟨none, { p with active := swapCut p.active k }, ?_, fun _ => by simp⟩
          simp only [removeLoop, getID, bind, Except.bind, hm, if_true]
          simp only [bind, Except.bind] at h
          exact h
        · have hk2 : k + 1 + rest.length = p.active.length := by simp at hk; omega
          have hstep : removeLoop p (some t) p.active.length k (some o :: rest) =
              removeLoop p (some t) p.active.length (k + 1) rest := by
            simp only [removeLoop, getID, bind, Except.bind, hm, if_false]
          rw [hstep]
          rcases ih (k + 1) hk2 with h | ⟨h, hnil⟩
          · exact Or.inl h
          · refine Or.inr ⟨h, ?_⟩
            rcases hnil with h1 | h2
            · exact Or.inl h1
            · exact Or.inr (List.mem_cons_of_mem _ h2)

theorem remove_outcome (p : pool) (target : Value) :
    (∃ r q, remove p target = .ok (r, q) ∧ (r = none → target ≠ none)) ∨
    (remove p target = .error .nilDereference ∧ (target = none ∨ none ∈ p.active)) :=
  removeLoop_outcome p target p.active 0 (by simp)

theorem receive_outcome (p : pool) (target : Value) :
    (∃ r q, receive p target = .ok (r, q)) ∨
    (receive p target = .error .nilDereference ∧ (target = none ∨ none ∈ p.active)) := by
  rcases remove_outcome p target with ⟨r, q, h, hr⟩ | ⟨h, hnil⟩
  · left
    cases r with
    | some e => exact ⟨some e, q, by simp [receive, h, bind, Except.bind]⟩
    | none =>
      obtain ⟨t, ht⟩ := Option.ne_none_iff_exists'.mp (hr rfl)
      subst ht
      exact ⟨none, { q with idle := q.idle ++ [some t] },
        by simp [receive, h, bind, Except.bind, getID]⟩
  · right
    exact ⟨by simp [receive, h, bind, Except.bind], hnil⟩

theorem loan_outcome (p : pool) :
    (∃ r q, loan p = .ok (r, q)) ∨
    (loan p = .error .nilDereference ∧ p.idle.head? = some none) := by
  cases hi : p.idle with
  | nil => exact Or.inl ⟨_, _, loan_idle_nil p hi⟩
  | cons v vs =>
    rw [loan_idle_cons p v vs hi]
    cases v with
    | none => exact Or.inr ⟨rfl, rfl⟩
    | some o => exact Or.inl ⟨_, _, rfl⟩

/-! ## Agreement with the pool of objects when no value is nil -/

theorem swapCut_map {α β : Type} (f : α → β) (l : List α) (i : Nat) :
    swapCut (l.map f) i = (swapCut l i).map f := by
  unfold swapCut
  rw [List.getLast?_map]
  cases l.getLast? with
  | none => simp
  | some z => simp [List.map_set, List.map_dropLast]

theorem loan_ofObjects (p : ObjectPool.pool) :
    loan (ofObjects p) =
      match ObjectPool.loan p with
      | some (.ok x, q) => .ok ((some x, none), ofObjects q)
      | some (.error e, q) => .ok ((none, some e), ofObjects q)
      | none => .error .indexOutOfRange := by
  cases hi : p.idle with
  | nil =>
    rw [ObjectPool.loan_nil p hi, loan_idle_nil (ofObjects p) (by simp [ofObjects, hi])]
  | cons x xs =>
    rw [ObjectPool.loan_cons p x xs hi,
      loan_idle_cons (ofObjects p) (some x) (xs.map some) (by simp [ofObjects, hi])]
    simp [getID, ofObjects, Except.bind]

theorem removeLoop_ofObjects_miss (P : pool) (t : iPoolObject) (n : Int) :
    ∀ (rest : List iPoolObject) (k : Nat), (∀ o ∈ rest, o.getID ≠ t.getID) →
      removeLoop P (some t) n k (rest.map some) =
        .ok (some "Targe pool object doesn't belong to the pool", P) := by
  intro rest
  induction rest with
  | nil => intro k _; rfl
  | cons x xs ih =>
    intro k h
    have hx : x.getID ≠ t.getID := h x (by simp)
    simp only [List.map_cons, removeLoop, getID, bind, Except.bind, hx, if_false]
    exact ih (k + 1) (fun o ho => h o (by simp [ho]))

theorem removeLoop_ofObjects_hit (P : pool) (t obj : iPoolObject) (post : List iPoolObject)
    (hobj : obj.getID = t.getID) :
    ∀ (mid : List iPoolObject) (k : Nat), (∀ o ∈ mid, o.getID ≠ t.getID) →
      k + mid.length < P.active.length →
      removeLoop P (some t) P.active.length k ((mid ++ obj :: post).map some) =
        .ok (none, { P with active := swapCut P.active (k + mid.length) }) := by
  intro mid
  induction mid with
  | nil =>
    intro k _ hk
    have h := swap_cut_checked P.active k (by simpa using hk)
      (fun a3 => (.ok (none, { P with active := a3 }) : Except Panic (Option String × pool)))
    simp only [bind, Except.bind] at h
    simp only [List.nil_append, List.map_cons, removeLoop, getID, bind, Except.bind, hobj,
      if_true, List.length_nil, Nat.add_zero]
    exact h
  | cons x xs ih =>
    intro k h hk
    have hx : x.getID ≠ t.getID := h x (by simp)
    have e := ih (k + 1) (fun o ho => h o (by simp [ho])) (by simp at hk; omega)
    simp only [List.cons_append, List.map_cons, removeLoop, getID, bind, Except.bind, hx,
      if_false]
    rw [show k + (x :: xs).length = k + 1 + xs.length by simp; omega]
    exact e

theorem remove_ofObjects_miss (p : ObjectPool.pool) (t : iPoolObject)
    (hm : ∀ o ∈ p.active, o.getID ≠ t.getID) :
    remove (ofObjects p) (some t) =
      .ok (some "Targe pool object doesn't belong to the pool", ofObjects p) :=
  removeLoop_ofObjects_miss (ofObjects p) t (ofObjects p).active.length p.active 0 hm

theorem remove_ofObjects_hit (p : ObjectPool.pool) (t obj : iPoolObject)
    (mid post : List iPoolObject) (ha : p.active = mid ++ obj :: post)
    (hmid : ∀ o ∈ mid, o.getID ≠ t.getID) (hobj : obj.getID = t.getID) :
    remove (ofObjects p) (some t) =
      .ok (none, { idle := p.idle.map some, active := (swapCut p.active mid.length).map some,
                   capacity := p.capacity }) := by
  have h := removeLoop_ofObjects_hit (ofObjects p) t obj post hobj mid 0 hmid
    (by simp [ofObjects, ha])
  rw [Nat.zero_add, ← ha] at h
  have e : remove (ofObjects p) (some t) =
      removeLoop (ofObjects p) (some t) (ofObjects p).active.length 0 (p.active.map some) := rfl
  rw [e, h]
  simp [ofObjects, swapCut_map]

theorem receive_ofObjects (p : ObjectPool.pool) (t : iPoolObject) :
    receive (ofObjects p) (some t) =
      match ObjectPool.receive p t with
      | some (.ok (), q) => .ok (none, ofObjects q)
      | some (.error e, q) => .ok (some e, ofObjects q)
      | none => .error .indexOutOfRange := by
  rcases ObjectPool.split_first t p.active with hm | ⟨mid, obj, post, ha, hmid, hobj⟩
  · rw [ObjectPool.receive_miss p t hm]
    simp only [receive, remove_ofObjects_miss p t hm, bind, Except.bind]
  · rw [ObjectPool.receive_hit p t obj mid post ha hmid hobj]
    simp only [receive, remove_ofObjects_hit p t obj mid post ha hmid hobj, bind, Except.bind,
      getID]
    simp [ofObjects]

/-! ## The claim on totality -/

/-- C19, as stated, fails: a call can end in a panic that is neither a success
nor a returned error.  On the pool of `rA`, after one `loan`, the next `loan`
returns nil beside its error, and `receive` of that nil panics in
`target.getID()` while `active` is not empty; and `loan` on a pool whose first
idle value is nil panics in `obj.getID()`. -/
theorem C19_counterexample :
    initPool [some rA] = .ok { idle := [some rA], active := [], capacity := 1 } ∧
    loan { idle := [some rA], active := [], capacity := 1 } =
      .ok ((some rA, none), { idle := [], active := [some rA], capacity := 1 }) ∧
    loan { idle := [], active := [some rA], capacity := 1 } =
      .ok ((none, some "No pool object free. Please request after sometime"),
        { idle := [], active := [some rA], capacity := 1 }) ∧
    receive { idle := [], active := [some rA], capacity := 1 } none =
      .error .nilDereference ∧
    initPool [none] = .ok { idle := [none], active := [], capacity := 1 } ∧
    loan { idle := [none], active := [], capacity := 1 } = .error .nilDereference :=
  ⟨rfl, rfl, rfl, rfl, rfl, rfl⟩

/-- C19, amended: on every pool (empty `idle`, empty `active` and nil values
included) and for every target the accesses `idle[0]` and `idle[1:]` in `loan`
and `active[i]`, `active[n-1]` and `active[:n-1]` in `remove` are within
bounds: neither `loan` nor `remove` nor `receive` panics with an index out of
range.  And where no value is nil the calls are total: when `idle` holds no nil
`loan` ends in a success or a returned error, and when `active` holds no nil and
the target is not nil `receive` ends in a success or a returned error. -/
theorem C19_in_bounds_and_total_without_nil (p : pool) (target : Value) :
    loan p ≠ .error .indexOutOfRange ∧
    remove p target ≠ .error .indexOutOfRange ∧
    receive p target ≠ .error .indexOutOfRange ∧
    ((∀ v ∈ p.idle, v ≠ none) → ∃ r q, loan p = .ok (r, q)) ∧
    ((∀ v ∈ p.active, v ≠ none) → target ≠ none →
      ∃ r q, receive p target = .ok (r, q)) := by
  refine ⟨?_, ?_, ?_, ?_, ?_⟩
  · rcases loan_outcome p with ⟨r, q, h⟩ | ⟨h, _⟩
    · rw [h]; intro hc; cases hc
    · rw [h]; intro hc; cases hc
  · rcases remove_outcome p target with ⟨r, q, h, _⟩ | ⟨h, _⟩
    · rw [h]; intro hc; cases hc
    · rw [h]; intro hc; cases hc
  · rcases receive_outcome p target with ⟨r, q, h⟩ | ⟨h, _⟩
    · rw [h]; intro hc; cases hc
    · rw [h]; intro hc; cases hc
  · intro hidle
    rcases loan_outcome p with h | ⟨_, hnil⟩
    · exact h
    · exfalso
      cases hi : p.idle with
      | nil => simp [hi] at hnil
      | cons v vs =>
        simp only [hi, List.head?_cons, Option.some.injEq] at hnil
        exact hidle v (by simp [hi]) hnil
  · intro hactive htarget
    rcases receive_outcome p target with h | ⟨_, hnil⟩
    · exact h
    · exfalso
      rcases hnil with h1 | h2
      · exact htarget h1
      · exact hactive none h2 rfl

theorem C19_in_bounds_and_total_without_nil_witness :
    (∀ v ∈ ({ idle := [some rB], active := [some rC, some rA], capacity := 3 } : pool).idle,
      v ≠ none) ∧
    (∀ v ∈ ({ idle := [some rB], active := [some rC, some rA], capacity := 3 } : pool).active,
      v ≠ none) ∧
    (some rA : Value) ≠ none ∧
    (∃ r q, loan { idle := [some rB], active := [some rC, some rA], capacity := 3 } =
      .ok (r, q)) ∧
    (∃ r q, receive { idle := [some rB], active := [some rC, some rA], capacity := 3 }
      (some rA) = .ok (r, q)) :=
  ⟨by decide, by decide, by decide,
    (C19_in_bounds_and_total_without_nil
      { idle := [some rB], active := [some rC, some rA], capacity := 3 } (some rA)).2.2.2.1
      (by decide),
    (C19_in_bounds_and_total_without_nil
      { idle := [some rB], active := [some rC, some rA], capacity := 3 } (some rA)).2.2.2.2
      (by decide) (by decide)⟩

end ObjectPool.WithNil
